import Mathlib

/-!
Shallow embedding of the ECC staffing estimator (`streamlit_app.py`).

The core is the Erlang-A-style staffing solver `erlang_a_fte`, a linear
search over candidate agent counts `n` in `range(1, max_agents)`, and the
FTE conversion arithmetic of the button handler (coverage factor, inbound
rostered FTE, outbound FTE).  Python floats are modelled as real numbers;
the Python `for` loop is modelled by the fuel-indexed recursion `search`;
`math.ceil` on a float is `Int.ceil`; returning `None` is `Option.none`.
-/

namespace ECCStaffing

/-- Input parameters of the Python function `erlang_a_fte`, one field per
keyword argument.  `max_agents` is a natural number (the Python caller and
the default pass integers); every other argument is a real number.  In the
source `shrinkage` here is a fraction (default `0.30`), while the slider
value used by the button handler is a percentage. -/
structure Params where
  calls_per_hour : ℝ
  aht_sec : ℝ
  target_sla : ℝ
  sla_threshold_sec : ℝ
  target_answer_rate : ℝ
  avg_patience_sec : ℝ
  max_agents : ℕ
  shrinkage : ℝ

/-- Arrival rate per second: `lambda_per_sec = calls_per_hour / 3600`. -/
noncomputable def lambda_per_sec (p : Params) : ℝ := p.calls_per_hour / 3600

/-- Service rate: `mu = 1 / aht_sec`. -/
noncomputable def mu (p : Params) : ℝ := 1 / p.aht_sec

/-- Abandonment rate: `theta = 1 / avg_patience_sec`. -/
noncomputable def theta (p : Params) : ℝ := 1 / p.avg_patience_sec

/-- Traffic intensity at `n` agents: `rho = lambda_per_sec / (n * mu)`. -/
noncomputable def rho (p : Params) (n : ℕ) : ℝ :=
  lambda_per_sec p / (n * mu p)

/-- Erlang-B term `erlang_b = (lambda_per_sec / mu)^n / n!`. -/
noncomputable def erlang_b (p : Params) (n : ℕ) : ℝ :=
  (lambda_per_sec p / mu p) ^ n / (Nat.factorial n : ℝ)

/-- Sum `sum_erlang_b = Σ_{k=0}^{n-1} (lambda_per_sec / mu)^k / k!`
(the Python generator expression over `range(n)`). -/
noncomputable def sum_erlang_b (p : Params) (n : ℕ) : ℝ :=
  ∑ k ∈ Finset.range n, (lambda_per_sec p / mu p) ^ k / (Nat.factorial k : ℝ)

/-- Normalizing constant `p0 = 1 / (sum_erlang_b + erlang_b / (1 - rho))`. -/
noncomputable def p0 (p : Params) (n : ℕ) : ℝ :=
  1 / (sum_erlang_b p n + erlang_b p n / (1 - rho p n))

/-- Probability of waiting `pw = (erlang_b / (1 - rho)) * p0`. -/
noncomputable def pw (p : Params) (n : ℕ) : ℝ :=
  (erlang_b p n / (1 - rho p n)) * p0 p n

/-- Service level `service_level = 1 - pw * exp(-((n*mu) - lambda) * sla_threshold_sec)`. -/
noncomputable def service_level (p : Params) (n : ℕ) : ℝ :=
  1 - pw p n * Real.exp (-((n * mu p) - lambda_per_sec p) * p.sla_threshold_sec)

/-- Answer rate `answer_rate = 1 - pw * (theta / (n*mu + theta))`. -/
noncomputable def answer_rate (p : Params) (n : ℕ) : ℝ :=
  1 - pw p n * (theta p / (n * mu p + theta p))

/-- Candidate `n` passes the loop body: the stability check `rho < 1`
succeeds and both targets are met (`service_level >= target_sla and
answer_rate >= target_answer_rate`). -/
def accepted (p : Params) (n : ℕ) : Prop :=
  rho p n < 1 ∧
    p.target_sla ≤ service_level p n ∧ p.target_answer_rate ≤ answer_rate p n

noncomputable instance (p : Params) (n : ℕ) : Decidable (accepted p n) :=
  inferInstanceAs (Decidable (_ ∧ _ ∧ _))

/-- Value returned by the Python `return math.ceil(n / (1 - shrinkage))`. -/
noncomputable def returned (p : Params) (n : ℕ) : ℤ :=
  ⌈(n : ℝ) / (1 - p.shrinkage)⌉

/-- The `for n in range(1, max_agents)` loop of `erlang_a_fte`: `n` is the
current candidate, the second argument counts the remaining iterations.
An unstable candidate (`rho >= 1`) is skipped by `continue`; an accepted
candidate returns `math.ceil(n / (1 - shrinkage))`; an exhausted loop
returns `None`. -/
noncomputable def search (p : Params) : ℕ → ℕ → Option ℤ
  | _, 0 => none
  | n, fuel + 1 =>
    if (1 : ℝ) ≤ rho p n then search p (n + 1) fuel
    else if p.target_sla ≤ service_level p n ∧
        p.target_answer_rate ≤ answer_rate p n then
      some (returned p n)
    else search p (n + 1) fuel

/-- The Python function `erlang_a_fte`: run the loop from `n = 1` for the
`max_agents - 1` iterations of `range(1, max_agents)`. -/
noncomputable def erlang_a_fte (p : Params) : Option ℤ :=
  search p 1 (p.max_agents - 1)

/-! FTE conversion constants and arithmetic from the app body. -/

/-- App constant: `hours_of_operation = 9`. -/
def hours_of_operation : ℝ := 9

/-- App constant: `agent_work_hours = 8`. -/
def agent_work_hours : ℝ := 8

/-- App constant: `coverage_factor = hours_of_operation / agent_work_hours`. -/
noncomputable def coverage_factor : ℝ := hours_of_operation / agent_work_hours

/-- Rostered inbound FTE from the button handler:
`total_inbound_fte = inbound_fte_on_floor * coverage_factor / (1 - shrinkage/100)`
where `shrinkage` is the slider percentage. -/
noncomputable def total_inbound_fte (inbound_fte_on_floor shrinkage_pct : ℝ) : ℝ :=
  inbound_fte_on_floor * coverage_factor / (1 - shrinkage_pct / 100)

/-- Outbound FTE from the button handler:
`total_ob_seconds / agent_productive_seconds_per_day` when the productive
seconds are positive, else `0`; `shrinkage` is the slider percentage. -/
noncomputable def outbound_fte
    (outbound_referrals_per_day avg_time_per_referral_sec shrinkage_pct : ℝ) : ℝ :=
  let total_ob_seconds := outbound_referrals_per_day * avg_time_per_referral_sec
  let agent_productive_seconds_per_day :=
    agent_work_hours * 3600 * (1 - shrinkage_pct / 100)
  if 0 < agent_productive_seconds_per_day then
    total_ob_seconds / agent_productive_seconds_per_day
  else 0

/-! Definitions written from the spec's wording of the dual-target policy,
for comparison with the code path above (refinement check of claim C2). -/

/-- Spec wording: `Pw = p0 * erlangBTerm / (1 - rho)` with offered load
`a = lambda / mu`, `erlangBTerm = a^n / n!`,
`sumTerms = Σ_{k=0..n-1} a^k / k!`,
`p0 = 1 / (sumTerms + erlangBTerm / (1 - rho))`. -/
noncomputable def spec_Pw (p : Params) (n : ℕ) : ℝ :=
  let a := lambda_per_sec p / mu p
  let erlangBTerm := a ^ n / (Nat.factorial n : ℝ)
  let sumTerms := ∑ k ∈ Finset.range n, a ^ k / (Nat.factorial k : ℝ)
  let P0 := 1 / (sumTerms + erlangBTerm / (1 - rho p n))
  P0 * erlangBTerm / (1 - rho p n)

/-- Spec wording: `SL = 1 - Pw * exp(-((n*mu - lambda) * slaThresholdSec))`. -/
noncomputable def spec_SL (p : Params) (n : ℕ) : ℝ :=
  1 - spec_Pw p n * Real.exp (-((n * mu p - lambda_per_sec p) * p.sla_threshold_sec))

/-- Spec wording: `AR = 1 - Pw * theta/(n*mu + theta)` with `theta = 1/avgPatienceSec`. -/
noncomputable def spec_AR (p : Params) (n : ℕ) : ℝ :=
  1 - spec_Pw p n * (theta p / (n * mu p + theta p))

/-! Offered-load forms of the Erlang quantities, used to reason about the
dependence of the loop body on the arrival rate: with `a = lambda/mu` the
code's `erlang_b`, `sum_erlang_b` and `pw` are functions of `a` and `n`
alone (note `rho = a / n`). -/

/-- Erlang-B term as a function of the offered load: `a^n / n!`. -/
noncomputable def BA (a : ℝ) (n : ℕ) : ℝ := a ^ n / (Nat.factorial n : ℝ)

/-- Sum `Σ_{k=0..n-1} a^k / k!` as a function of the offered load. -/
noncomputable def SA (a : ℝ) (n : ℕ) : ℝ :=
  ∑ k ∈ Finset.range n, a ^ k / (Nat.factorial k : ℝ)

/-- The code's waiting probability as a function of the offered load,
substituting `rho = a / n` into `pw = (erlang_b/(1-rho)) * p0`. -/
noncomputable def pwA (a : ℝ) (n : ℕ) : ℝ :=
  BA a n / (1 - a / n) * (1 / (SA a n + BA a n / (1 - a / n)))

/-! Concrete parameter sets used to evaluate the solver on specific
inputs.  `pZero` uses the app's default targets with zero call volume and
zero shrinkage; the others vary one argument at a time. -/

/-- Zero call volume, default targets, solver-side shrinkage `0` (as the
button handler passes). -/
noncomputable def pZero : Params :=
  { calls_per_hour := 0, aht_sec := 600, target_sla := 0.8,
    sla_threshold_sec := 30, target_answer_rate := 0.95,
    avg_patience_sec := 150, max_agents := 100, shrinkage := 0 }

/-- Same as `pZero` but with the Python default shrinkage `0.30`. -/
noncomputable def pShrink : Params := { pZero with shrinkage := 0.30 }

/-- Same as `pZero` but with a negative call volume. -/
noncomputable def pNeg : Params := { pZero with calls_per_hour := -3600 }

/-- Same as `pZero` but with a second negative call volume. -/
noncomputable def pNegTwo : Params := { pZero with calls_per_hour := -7200 }

/-- A heavily overloaded input: 3600 calls per hour with a 600 s handle
time makes `rho = 600` at a single agent. -/
noncomputable def pOverload : Params := { pZero with calls_per_hour := 3600 }

/-! Basic lemmas about the search loop. -/

/-- One iteration of the loop body either returns at an accepted candidate
or moves on to the next candidate. -/
lemma search_succ (p : Params) (n fuel : ℕ) :
    search p n (fuel + 1) =
      if accepted p n then some (returned p n) else search p (n + 1) fuel := by
  by_cases h1 : (1 : ℝ) ≤ rho p n
  · have hna : ¬ accepted p n := fun h => absurd h.1 (not_lt.mpr h1)
    rw [search, if_pos h1, if_neg hna]
  · by_cases h2 : p.target_sla ≤ service_level p n ∧
        p.target_answer_rate ≤ answer_rate p n
    · have ha : accepted p n := ⟨lt_of_not_le h1, h2.1, h2.2⟩
      rw [search, if_neg h1, if_pos h2, if_pos ha]
    · have hna : ¬ accepted p n := fun h => h2 ⟨h.2.1, h.2.2⟩
      rw [search, if_neg h1, if_neg h2, if_neg hna]

/-- Soundness of the search: a returned value comes from the first accepted
candidate in the scanned range. -/
lemma search_eq_some (p : Params) :
    ∀ fuel n r, search p n fuel = some r →
      ∃ m, n ≤ m ∧ m < n + fuel ∧ accepted p m ∧
        (∀ j, n ≤ j → j < m → ¬ accepted p j) ∧ r = returned p m := by
  intro fuel
  induction fuel with
  | zero => intro n r h; rw [search] at h; exact absurd h (by simp)
  | succ f ih =>
    intro n r h
    rw [search_succ] at h
    by_cases ha : accepted p n
    · rw [if_pos ha] at h
      exact ⟨n, le_refl n, by omega, ha, fun j h1 h2 => by omega,
        (Option.some.inj h).symm⟩
    · rw [if_neg ha] at h
      obtain ⟨m, hm1, hm2, hm3, hm4, hm5⟩ := ih (n + 1) r h
      refine ⟨m, by omega, by omega, hm3, fun j hj1 hj2 => ?_, hm5⟩
      rcases eq_or_lt_of_le hj1 with hj | hj
      · exact hj ▸ ha
      · exact hm4 j (by omega) hj2

/-- Completeness of the search: the first accepted candidate in the scanned
range is returned. -/
lemma search_eq_some_of (p : Params) :
    ∀ fuel n m, n ≤ m → m < n + fuel → accepted p m →
      (∀ j, n ≤ j → j < m → ¬ accepted p j) →
      search p n fuel = some (returned p m) := by
  intro fuel
  induction fuel with
  | zero => intro n m h1 h2; omega
  | succ f ih =>
    intro n m h1 h2 hm hmin
    rw [search_succ]
    rcases eq_or_lt_of_le h1 with h | h
    · rw [if_pos (h ▸ hm), h]
    · rw [if_neg (hmin n (le_refl n) h)]
      exact ih (n + 1) m (by omega) (by omega) hm fun j hj1 hj2 =>
        hmin j (by omega) hj2

/-- If no candidate in the scanned range is accepted, the search is
exhausted and returns `none`. -/
lemma search_eq_none (p : Params) :
    ∀ fuel n, (∀ j, n ≤ j → j < n + fuel → ¬ accepted p j) →
      search p n fuel = none := by
  intro fuel
  induction fuel with
  | zero => intro n _; rw [search]
  | succ f ih =>
    intro n h
    rw [search_succ, if_neg (h n (le_refl n) (by omega))]
    exact ih (n + 1) fun j hj1 hj2 => h j (by omega) (by omega)

/-! Evaluation at zero arrival rate: candidate `n = 1` has `pw = 0` and is
accepted as soon as both targets are at most `1`. -/

lemma pw_one_zero_calls (p : Params) (hc : p.calls_per_hour = 0) :
    pw p 1 = 0 := by
  have hlam : lambda_per_sec p = 0 := by simp [lambda_per_sec, hc]
  simp [pw, erlang_b, hlam]

lemma accepted_one_zero_calls (p : Params) (hc : p.calls_per_hour = 0)
    (h1 : p.target_sla ≤ 1) (h2 : p.target_answer_rate ≤ 1) :
    accepted p 1 := by
  have hlam : lambda_per_sec p = 0 := by simp [lambda_per_sec, hc]
  have hpw := pw_one_zero_calls p hc
  refine ⟨?_, ?_, ?_⟩
  · simp [rho, hlam]
  · rw [service_level, hpw]; simpa using h1
  · rw [answer_rate, hpw]; simpa using h2

lemma erlang_a_fte_zero_calls (p : Params) (hc : p.calls_per_hour = 0)
    (h1 : p.target_sla ≤ 1) (h2 : p.target_answer_rate ≤ 1)
    (hm : 2 ≤ p.max_agents) :
    erlang_a_fte p = some (returned p 1) := by
  have ha := accepted_one_zero_calls p hc h1 h2
  have hfuel : p.max_agents - 1 = (p.max_agents - 2) + 1 := by omega
  rw [erlang_a_fte, hfuel, search_succ, if_pos ha]

lemma returned_one_zero_shrinkage (p : Params) (hs : p.shrinkage = 0) :
    returned p 1 = 1 := by
  simp [returned, hs]

/-- Evaluation of the solver at the zero-volume default input. -/
lemma pZero_fte : erlang_a_fte pZero = some 1 := by
  rw [erlang_a_fte_zero_calls pZero rfl (by norm_num [pZero]) (by norm_num [pZero])
    (by norm_num [pZero]), returned_one_zero_shrinkage pZero rfl]

/-! Claim theorems. -/

/-- C5 counterexample: at `shrinkage = 100 %` the productive seconds per
day are `0` and `outbound_fte` silently evaluates to `0` instead of
signalling an input error, contradicting the claim. -/
theorem C5_counterexample : outbound_fte 90 300 100 = 0 := by
  rw [outbound_fte]
  norm_num [agent_work_hours]

/-- C5 (amended): whenever `agent_work_hours * 3600 * (1 - shrinkage/100)`
is non-positive (shrinkage at or above 100 %), the code returns `0` as the
outbound FTE — a silent zero, not an input error. -/
theorem C5_silent_zero (t τ s : ℝ)
    (h : agent_work_hours * 3600 * (1 - s / 100) ≤ 0) :
    outbound_fte t τ s = 0 := by
  rw [outbound_fte]
  exact if_neg (not_lt.mpr h)

/-- C5 witness: the amended statement applied at a concrete input. -/
theorem C5_silent_zero_witness : outbound_fte 5 7 120 = 0 :=
  C5_silent_zero 5 7 120 (by norm_num [agent_work_hours])

/-- C8: the rostered inbound FTE is
`agentsOnFloor * coverage_factor / (1 - shrinkage)` with
`coverage_factor = hours_of_operation / agent_work_hours`, and for a fixed
positive agent count it is strictly increasing in the shrinkage fraction on
`[0, 1)` (the slider percentage is `100 *` the fraction). -/
theorem C8_inbound_fte_shrinkage (a f₁ f₂ : ℝ) (ha : 0 < a)
    (_h0 : 0 ≤ f₁) (h12 : f₁ < f₂) (h1 : f₂ < 1) :
    total_inbound_fte a (100 * f₁) = a * coverage_factor / (1 - f₁) ∧
      coverage_factor = hours_of_operation / agent_work_hours ∧
      total_inbound_fte a (100 * f₁) < total_inbound_fte a (100 * f₂) := by
  have hc : (0 : ℝ) < coverage_factor := by
    norm_num [coverage_factor, hours_of_operation, agent_work_hours]
  have he : ∀ f : ℝ, total_inbound_fte a (100 * f) = a * coverage_factor / (1 - f) := by
    intro f
    rw [total_inbound_fte]
    norm_num
  refine ⟨he f₁, rfl, ?_⟩
  rw [he f₁, he f₂]
  apply div_lt_div_of_pos_left (by positivity) (by linarith) (by linarith)

/-- C8 witness: the shrinkage-scaling statement at a concrete input. -/
theorem C8_inbound_fte_shrinkage_witness :
    total_inbound_fte 2 (100 * 0) = 2 * coverage_factor / (1 - 0) ∧
      coverage_factor = hours_of_operation / agent_work_hours ∧
      total_inbound_fte 2 (100 * 0) < total_inbound_fte 2 (100 * (1 / 2)) :=
  C8_inbound_fte_shrinkage 2 0 (1 / 2) (by norm_num) (by norm_num) (by norm_num)
    (by norm_num)

/-- C9: below 100 % shrinkage the outbound FTE equals
`tasksPerDay * avgTaskTimeSec / (agent_work_hours * 3600 * (1 - s/100))`,
scales linearly in the task count and in the task time, and scales as
`1 / (1 - shrinkage)` relative to zero shrinkage. -/
theorem C9_outbound_linearity (t τ c s : ℝ) (hs : s < 100) :
    outbound_fte t τ s = t * τ / (agent_work_hours * 3600 * (1 - s / 100)) ∧
      outbound_fte (c * t) τ s = c * outbound_fte t τ s ∧
      outbound_fte t (c * τ) s = c * outbound_fte t τ s ∧
      outbound_fte t τ s = outbound_fte t τ 0 * (1 / (1 - s / 100)) := by
  have hpos : 0 < agent_work_hours * 3600 * (1 - s / 100) := by
    rw [agent_work_hours]; nlinarith
  have he : ∀ u v : ℝ,
      outbound_fte u v s = u * v / (agent_work_hours * 3600 * (1 - s / 100)) := by
    intro u v
    rw [outbound_fte]
    exact if_pos hpos
  have h0 : outbound_fte t τ 0 = t * τ / (agent_work_hours * 3600) := by
    rw [outbound_fte]
    norm_num [agent_work_hours]
  refine ⟨he t τ, ?_, ?_, ?_⟩
  · rw [he (c * t) τ, he t τ]; ring
  · rw [he t (c * τ), he t τ]; ring
  · rw [he t τ, h0]
    have h1 : (1 : ℝ) - s / 100 ≠ 0 := by intro h; nlinarith
    have h2 : agent_work_hours ≠ 0 := by norm_num [agent_work_hours]
    field_simp

/-- C9 witness: the linearity statement at a concrete input. -/
theorem C9_outbound_linearity_witness :
    outbound_fte 90 300 20 = 90 * 300 / (agent_work_hours * 3600 * (1 - 20 / 100)) ∧
      outbound_fte (3 * 90) 300 20 = 3 * outbound_fte 90 300 20 ∧
      outbound_fte 90 (3 * 300) 20 = 3 * outbound_fte 90 300 20 ∧
      outbound_fte 90 300 20 = outbound_fte 90 300 0 * (1 / (1 - 20 / 100)) :=
  C9_outbound_linearity 90 300 3 20 (by norm_num)

/-- C2: for every candidate `n` the solver evaluates (stability check
`rho < 1` passed), acceptance holds exactly when the spec's dual-target
formulas are met: `SL = 1 - Pw * exp(-((n*mu - lambda) * slaThresholdSec))`
at least `targetServiceLevel` and `AR = 1 - Pw * theta/(n*mu + theta)` at
least `targetAnswerRate`, with `Pw` the Erlang-C waiting probability. -/
theorem C2_dual_target_policy (p : Params) (n : ℕ) (h : rho p n < 1) :
    accepted p n ↔
      p.target_sla ≤ spec_SL p n ∧ p.target_answer_rate ≤ spec_AR p n := by
  have hpw : spec_Pw p n = pw p n := by
    simp only [spec_Pw, pw, p0, erlang_b, sum_erlang_b]
    ring
  have harg : -((n * mu p : ℝ) - lambda_per_sec p) * p.sla_threshold_sec =
      -((n * mu p - lambda_per_sec p) * p.sla_threshold_sec) := by ring
  have hsl : spec_SL p n = service_level p n := by
    rw [spec_SL, service_level, hpw, harg]
  have har : spec_AR p n = answer_rate p n := by
    rw [spec_AR, answer_rate, hpw]
  rw [accepted, hsl, har]
  exact ⟨fun ⟨_, h2, h3⟩ => ⟨h2, h3⟩, fun ⟨h2, h3⟩ => ⟨h, h2, h3⟩⟩

/-- C2 witness: the policy equivalence applied at the zero-volume input
and candidate `n = 1`, whose stability check passes. -/
theorem C2_dual_target_policy_witness :
    accepted pZero 1 ↔
      pZero.target_sla ≤ spec_SL pZero 1 ∧
        pZero.target_answer_rate ≤ spec_AR pZero 1 :=
  C2_dual_target_policy pZero 1
    (by rw [rho]; norm_num [lambda_per_sec, pZero])

/-- C7: with zero call volume and the remaining inputs valid (positive
handle time and patience, targets at most one, ceiling at least two,
solver shrinkage zero), the solver immediately succeeds with the minimal
candidate `n = 1`, and the rostered inbound FTE for one agent on floor is
exactly the coverage/shrinkage scaling `coverage_factor / (1 - s/100)`. -/
theorem C7_zero_volume (p : Params) (hc : p.calls_per_hour = 0)
    (_haht : 0 < p.aht_sec) (_hpat : 0 < p.avg_patience_sec)
    (h1 : p.target_sla ≤ 1) (h2 : p.target_answer_rate ≤ 1)
    (hm : 2 ≤ p.max_agents) (hs : p.shrinkage = 0) :
    erlang_a_fte p = some 1 ∧
      ∀ s : ℝ, total_inbound_fte 1 s = coverage_factor / (1 - s / 100) := by
  constructor
  · rw [erlang_a_fte_zero_calls p hc h1 h2 hm, returned_one_zero_shrinkage p hs]
  · intro s
    rw [total_inbound_fte, one_mul]

/-- C7 witness: the zero-volume statement at the concrete default input. -/
theorem C7_zero_volume_witness :
    erlang_a_fte pZero = some 1 ∧
      ∀ s : ℝ, total_inbound_fte 1 s = coverage_factor / (1 - s / 100) :=
  C7_zero_volume pZero rfl (by norm_num [pZero]) (by norm_num [pZero])
    (by norm_num [pZero]) (by norm_num [pZero]) (by norm_num [pZero]) rfl

/-- C10: for shrinkage in `[0, 1)`, every non-`None` result of the solver
is an integer at least `1` — never `0` — so the caller's truthiness test
on the result coincides with feasibility. -/
theorem C10_result_at_least_one (p : Params) (_h0 : 0 ≤ p.shrinkage)
    (h1 : p.shrinkage < 1) (r : ℤ) (h : erlang_a_fte p = some r) :
    1 ≤ r := by
  obtain ⟨m, hm1, _, _, _, hr⟩ := search_eq_some p _ _ _ h
  rw [hr, returned]
  have hm : (1 : ℝ) ≤ (m : ℝ) := by exact_mod_cast hm1
  have hpos : (0 : ℝ) < (m : ℝ) / (1 - p.shrinkage) :=
    div_pos (by linarith) (by linarith)
  have := Int.ceil_pos.mpr hpos
  omega

/-- C10 witness: the lower bound applied to the zero-volume input, whose
solver result is `some 1`. -/
theorem C10_result_at_least_one_witness : (1 : ℤ) ≤ 1 :=
  C10_result_at_least_one pZero (by norm_num [pZero]) (by norm_num [pZero])
    1 pZero_fte

/-- C1 counterexample: at zero volume with the Python default shrinkage
`0.30`, candidate `n = 1` is accepted (so the minimal accepted `n` is
`1`), yet the solver returns `2 = ceil(1 / 0.7)`, not the minimal `n`. -/
theorem C1_counterexample :
    erlang_a_fte pShrink = some 2 ∧ accepted pShrink 1 ∧ (2 : ℤ) ≠ 1 := by
  have ha : accepted pShrink 1 :=
    accepted_one_zero_calls pShrink rfl (by norm_num [pShrink, pZero])
      (by norm_num [pShrink, pZero])
  refine ⟨?_, ha, by norm_num⟩
  rw [erlang_a_fte_zero_calls pShrink rfl (by norm_num [pShrink, pZero])
    (by norm_num [pShrink, pZero]) (by norm_num [pShrink, pZero])]
  have hq : ((1 : ℕ) : ℝ) / (1 - pShrink.shrinkage) = 10 / 7 := by
    norm_num [pShrink, pZero]
  rw [returned, hq]
  norm_num [Int.ceil_eq_iff]

/-- C1 (amended): the returned value is `ceil(n / (1 - shrinkage))` for
the first accepted candidate `n`; when the shrinkage argument is `0` (as
the app's caller passes) the solver returns exactly the smallest accepted
`n ≥ 1` below `max_agents`, and returns `None` when no candidate in
`[1, max_agents)` is accepted. -/
theorem C1_first_accepted (p : Params) (hs : p.shrinkage = 0) :
    (∀ r, erlang_a_fte p = some r →
      ∃ n : ℕ, 1 ≤ n ∧ n < p.max_agents ∧ r = (n : ℤ) ∧ accepted p n ∧
        ∀ m, 1 ≤ m → m < n → ¬ accepted p m) ∧
      ((∀ n, 1 ≤ n → n < p.max_agents → ¬ accepted p n) →
        erlang_a_fte p = none) := by
  constructor
  · intro r h
    obtain ⟨m, hm1, hm2, hm3, hm4, hm5⟩ := search_eq_some p _ _ _ h
    refine ⟨m, hm1, by omega, ?_, hm3, fun j hj1 hj2 => hm4 j hj1 hj2⟩
    rw [hm5, returned, hs]
    simp
  · intro h
    rw [erlang_a_fte]
    apply search_eq_none
    intro j hj1 hj2
    exact h j hj1 (by omega)

/-- C1 witness: the amended statement applied at the zero-volume input,
where the solver returns `some 1`. -/
theorem C1_first_accepted_witness :
    ∃ n : ℕ, 1 ≤ n ∧ n < pZero.max_agents ∧ (1 : ℤ) = (n : ℤ) ∧
      accepted pZero n ∧ ∀ m, 1 ≤ m → m < n → ¬ accepted pZero m :=
  (C1_first_accepted pZero rfl).1 1 pZero_fte

/-- C3: an unstable candidate (`rho >= 1`) makes the loop body `continue`
to the next candidate, and every returned value arises from an accepted
candidate whose traffic intensity is strictly below `1`. -/
theorem C3_stability (p : Params) :
    (∀ n fuel, (1 : ℝ) ≤ rho p n →
      search p n (fuel + 1) = search p (n + 1) fuel) ∧
      ∀ r, erlang_a_fte p = some r →
        ∃ n, 1 ≤ n ∧ n < p.max_agents ∧ rho p n < 1 ∧ accepted p n ∧
          r = returned p n := by
  constructor
  · intro n fuel h
    rw [search, if_pos h]
  · intro r h
    obtain ⟨m, hm1, hm2, hm3, _, hm5⟩ := search_eq_some p _ _ _ h
    exact ⟨m, hm1, by omega, hm3.1, hm3, hm5⟩

/-- C3 witness: at an overloaded input the first loop iteration skips the
unstable candidate `n = 1` (`rho = 600`), and at the zero-volume input the
returned value comes from the stable accepted candidate `n = 1`. -/
theorem C3_stability_witness :
    search pOverload 1 (5 + 1) = search pOverload 2 5 ∧
      ∃ n, 1 ≤ n ∧ n < pZero.max_agents ∧ rho pZero n < 1 ∧
        accepted pZero n ∧ (1 : ℤ) = returned pZero n :=
  ⟨(C3_stability pOverload).1 1 5
      (by norm_num [rho, lambda_per_sec, mu, pOverload, pZero]),
    (C3_stability pZero).2 1 pZero_fte⟩

/-! Evaluation at negative arrival rate: the code performs no input
validation, so a negative call volume flows into the search; at `n = 1`
the waiting probability evaluates to the (negative) offered load and both
targets are trivially met. -/

lemma rho_one (p : Params) : rho p 1 = lambda_per_sec p / mu p := by
  rw [rho]
  norm_num

lemma neg_offered_pw (a : ℝ) (ha : a < 0) :
    a / (1 - a) * (1 / (1 + a / (1 - a))) = a := by
  have h1 : (0 : ℝ) < 1 - a := by linarith
  have hne : 1 - a ≠ 0 := h1.ne'
  have hden : 1 + a / (1 - a) = 1 / (1 - a) := by
    field_simp
  rw [hden, one_div_one_div, div_mul_cancel₀ a hne]

lemma pw_one_neg (p : Params) (ha : lambda_per_sec p / mu p < 0) :
    pw p 1 = lambda_per_sec p / mu p := by
  have hsum : sum_erlang_b p 1 = 1 := by
    rw [sum_erlang_b]
    simp
  have hB : erlang_b p 1 = lambda_per_sec p / mu p := by
    rw [erlang_b]
    simp
  rw [pw, p0, hsum, hB, rho_one]
  exact neg_offered_pw _ ha

lemma le_one_sub_neg_mul_exp {a t x : ℝ} (ha : a < 0) (ht : t ≤ 1) :
    t ≤ 1 - a * Real.exp x := by
  nlinarith [Real.exp_pos x]

lemma le_one_sub_neg_mul_pos {a c t : ℝ} (ha : a < 0) (hc : 0 < c) (ht : t ≤ 1) :
    t ≤ 1 - a * c := by
  nlinarith

lemma accepted_one_neg_calls (p : Params) (hc : p.calls_per_hour < 0)
    (haht : 0 < p.aht_sec) (hpat : 0 < p.avg_patience_sec)
    (h1 : p.target_sla ≤ 1) (h2 : p.target_answer_rate ≤ 1) :
    accepted p 1 := by
  have hmu : 0 < mu p := by
    rw [mu]
    positivity
  have hth : 0 < theta p := by
    rw [theta]
    positivity
  have hlam : lambda_per_sec p < 0 := by
    rw [lambda_per_sec]
    exact div_neg_of_neg_of_pos hc (by norm_num)
  have ha : lambda_per_sec p / mu p < 0 := div_neg_of_neg_of_pos hlam hmu
  have hpw := pw_one_neg p ha
  refine ⟨?_, ?_, ?_⟩
  · rw [rho_one p]
    linarith
  · rw [service_level, hpw]
    exact le_one_sub_neg_mul_exp ha h1
  · rw [answer_rate, hpw]
    refine le_one_sub_neg_mul_pos ha (div_pos hth ?_) h2
    push_cast
    nlinarith

lemma erlang_a_fte_neg_calls (p : Params) (hc : p.calls_per_hour < 0)
    (haht : 0 < p.aht_sec) (hpat : 0 < p.avg_patience_sec)
    (h1 : p.target_sla ≤ 1) (h2 : p.target_answer_rate ≤ 1)
    (hm : 2 ≤ p.max_agents) :
    erlang_a_fte p = some (returned p 1) := by
  have ha := accepted_one_neg_calls p hc haht hpat h1 h2
  have hfuel : p.max_agents - 1 = (p.max_agents - 2) + 1 := by omega
  rw [erlang_a_fte, hfuel, search_succ, if_pos ha]

/-- C4 counterexample: a negative call count (`calls_per_hour = -3600`)
is not rejected: the solver evaluates candidate `n = 1`, accepts it, and
returns `some 1` instead of signalling an input error before searching. -/
theorem C4_counterexample : erlang_a_fte pNeg = some 1 := by
  rw [erlang_a_fte_neg_calls pNeg (by norm_num [pNeg, pZero])
    (by norm_num [pNeg, pZero]) (by norm_num [pNeg, pZero])
    (by norm_num [pNeg, pZero]) (by norm_num [pNeg, pZero])
    (by norm_num [pNeg, pZero]), returned_one_zero_shrinkage pNeg rfl]

/-- C4 (amended): the solver performs no input validation before the
search: for any negative call volume (with positive handle time and
patience, targets at most one and a ceiling of at least two) the search
runs, evaluates candidate `n = 1`, accepts it and returns a numeric
result rather than signalling an input error. -/
theorem C4_no_input_validation (p : Params) (hc : p.calls_per_hour < 0)
    (haht : 0 < p.aht_sec) (hpat : 0 < p.avg_patience_sec)
    (h1 : p.target_sla ≤ 1) (h2 : p.target_answer_rate ≤ 1)
    (hm : 2 ≤ p.max_agents) :
    erlang_a_fte p = some (returned p 1) :=
  erlang_a_fte_neg_calls p hc haht hpat h1 h2 hm

/-- C4 witness: the amended statement at a second concrete negative
volume. -/
theorem C4_no_input_validation_witness :
    erlang_a_fte pNegTwo = some (returned pNegTwo 1) :=
  C4_no_input_validation pNegTwo (by norm_num [pNegTwo, pZero])
    (by norm_num [pNegTwo, pZero]) (by norm_num [pNegTwo, pZero])
    (by norm_num [pNegTwo, pZero]) (by norm_num [pNegTwo, pZero])
    (by norm_num [pNegTwo, pZero])

/-! Monotonicity of the loop body in the arrival rate (towards C6).  All
quantities of the loop body depend on the volume only through the offered
load `a = lambda / mu`; the waiting probability is nondecreasing in `a`
on the stable range, hence both the service level and the answer rate are
nonincreasing in the volume, and acceptance is downward closed. -/

lemma rho_div (p : Params) (n : ℕ) :
    rho p n = lambda_per_sec p / mu p / n := by
  rw [rho, mul_comm ((n : ℝ)) (mu p), ← div_div]

lemma erlang_b_eq_BA (p : Params) (n : ℕ) :
    erlang_b p n = BA (lambda_per_sec p / mu p) n := rfl

lemma sum_erlang_b_eq_SA (p : Params) (n : ℕ) :
    sum_erlang_b p n = SA (lambda_per_sec p / mu p) n := rfl

lemma pw_eq_pwA (p : Params) (n : ℕ) :
    pw p n = pwA (lambda_per_sec p / mu p) n := by
  rw [pw, p0, rho_div, pwA, erlang_b_eq_BA, sum_erlang_b_eq_SA]

lemma one_le_SA (a : ℝ) (n : ℕ) (hn : 1 ≤ n) (ha : 0 ≤ a) :
    1 ≤ SA a n := by
  rw [SA]
  calc (1 : ℝ) = a ^ 0 / (Nat.factorial 0 : ℝ) := by norm_num
    _ ≤ ∑ k ∈ Finset.range n, a ^ k / (Nat.factorial k : ℝ) :=
        Finset.single_le_sum
          (fun k _ => div_nonneg (pow_nonneg ha k) (Nat.cast_nonneg _))
          (Finset.mem_range.mpr (by omega))

lemma BA_nonneg (a : ℝ) (n : ℕ) (ha : 0 ≤ a) : 0 ≤ BA a n :=
  div_nonneg (pow_nonneg ha n) (Nat.cast_nonneg _)

lemma pwA_closed (a : ℝ) (n : ℕ) (hn : 1 ≤ n) (ha : 0 ≤ a)
    (hr : a / n < 1) :
    pwA a n = BA a n / ((1 - a / n) * SA a n + BA a n) := by
  have h1 : (0 : ℝ) < 1 - a / n := by linarith
  have hS : 1 ≤ SA a n := one_le_SA a n hn ha
  have hB : 0 ≤ BA a n := BA_nonneg a n ha
  have hd1 : 0 < SA a n + BA a n / (1 - a / n) := by
    have := div_nonneg hB h1.le
    linarith
  have hd2 : 0 < (1 - a / n) * SA a n + BA a n := by nlinarith
  have hn0 : (0 : ℝ) < n := by exact_mod_cast Nat.pos_of_ne_zero (by omega)
  have hna : (n : ℝ) - a ≠ 0 := by
    have : a < n := (div_lt_one hn0).mp hr
    linarith
  rw [pwA]
  field_simp [hna]
  ring

lemma pwA_nonneg (a : ℝ) (n : ℕ) (hn : 1 ≤ n) (ha : 0 ≤ a)
    (hr : a / n < 1) :
    0 ≤ pwA a n := by
  have h1 : (0 : ℝ) < 1 - a / n := by linarith
  have hS : 1 ≤ SA a n := one_le_SA a n hn ha
  have hB : 0 ≤ BA a n := BA_nonneg a n ha
  have hd2 : 0 < (1 - a / n) * SA a n + BA a n := by nlinarith
  rw [pwA_closed a n hn ha hr]
  exact div_nonneg hB hd2.le

lemma pow_term_le (a b : ℝ) (n k : ℕ) (ha : 0 ≤ a) (hab : a ≤ b)
    (hbn : b < n) (hk : k < n) :
    a ^ n * ((n : ℝ) - b) * b ^ k ≤ b ^ n * ((n : ℝ) - a) * a ^ k := by
  have hd : n = k + (n - k) := by omega
  have h1 : a ^ n = a ^ k * a ^ (n - k) := by rw [← pow_add, ← hd]
  have h2 : b ^ n = b ^ k * b ^ (n - k) := by rw [← pow_add, ← hd]
  have hb0 : 0 ≤ b := le_trans ha hab
  have hinner : a ^ (n - k) * ((n : ℝ) - b) ≤ b ^ (n - k) * ((n : ℝ) - a) :=
    mul_le_mul (pow_le_pow_left₀ ha hab _) (by linarith) (by linarith)
      (pow_nonneg hb0 _)
  calc a ^ n * ((n : ℝ) - b) * b ^ k
      = a ^ k * b ^ k * (a ^ (n - k) * ((n : ℝ) - b)) := by rw [h1]; ring
    _ ≤ a ^ k * b ^ k * (b ^ (n - k) * ((n : ℝ) - a)) :=
        mul_le_mul_of_nonneg_left hinner
          (mul_nonneg (pow_nonneg ha k) (pow_nonneg hb0 k))
    _ = b ^ n * ((n : ℝ) - a) * a ^ k := by rw [h2]; ring

lemma BA_SA_cross (a b : ℝ) (n : ℕ) (hn : 1 ≤ n) (ha : 0 ≤ a) (hab : a ≤ b)
    (hbn : b < n) :
    BA a n * (1 - b / n) * SA b n ≤ BA b n * (1 - a / n) * SA a n := by
  have hn0 : (0 : ℝ) < n := by exact_mod_cast Nat.pos_of_ne_zero (by omega)
  have hrw : ∀ x : ℝ, 1 - x / n = ((n : ℝ) - x) / n := fun x => by
    field_simp
  rw [hrw a, hrw b, SA, SA, Finset.mul_sum, Finset.mul_sum]
  apply Finset.sum_le_sum
  intro k hk
  have hk' : k < n := Finset.mem_range.mp hk
  have hf1 : (0 : ℝ) < (Nat.factorial n : ℝ) := by
    exact_mod_cast Nat.factorial_pos n
  have hf2 : (0 : ℝ) < (Nat.factorial k : ℝ) := by
    exact_mod_cast Nat.factorial_pos k
  have hpoly := pow_term_le a b n k ha hab hbn hk'
  have hden : (0 : ℝ) < (Nat.factorial n : ℝ) * n * (Nat.factorial k : ℝ) := by
    positivity
  calc BA a n * (((n : ℝ) - b) / n) * (b ^ k / (Nat.factorial k : ℝ))
      = a ^ n * ((n : ℝ) - b) * b ^ k /
          ((Nat.factorial n : ℝ) * n * (Nat.factorial k : ℝ)) := by
        rw [BA]; ring
    _ ≤ b ^ n * ((n : ℝ) - a) * a ^ k /
          ((Nat.factorial n : ℝ) * n * (Nat.factorial k : ℝ)) := by
        gcongr
    _ = BA b n * (((n : ℝ) - a) / n) * (a ^ k / (Nat.factorial k : ℝ)) := by
        rw [BA]; ring

lemma pwA_mono (a b : ℝ) (n : ℕ) (hn : 1 ≤ n) (ha : 0 ≤ a) (hab : a ≤ b)
    (hr : b / n < 1) :
    pwA a n ≤ pwA b n := by
  have hn0 : (0 : ℝ) < n := by exact_mod_cast Nat.pos_of_ne_zero (by omega)
  have hb0 : 0 ≤ b := ha.trans hab
  have hbn : b < n := (div_lt_one hn0).mp hr
  have hra : a / n < 1 := by
    apply lt_of_le_of_lt _ hr
    gcongr
  have hSa : 1 ≤ SA a n := one_le_SA a n hn ha
  have hSb : 1 ≤ SA b n := one_le_SA b n hn hb0
  have hBa : 0 ≤ BA a n := BA_nonneg a n ha
  have hBb : 0 ≤ BA b n := BA_nonneg b n hb0
  have h1a : (0 : ℝ) < 1 - a / n := by linarith
  have h1b : (0 : ℝ) < 1 - b / n := by linarith
  have hd2a : 0 < (1 - a / n) * SA a n + BA a n := by nlinarith
  have hd2b : 0 < (1 - b / n) * SA b n + BA b n := by nlinarith
  rw [pwA_closed a n hn ha hra, pwA_closed b n hn hb0 hr,
    div_le_div_iff₀ hd2a hd2b]
  have key := BA_SA_cross a b n hn ha hab hbn
  nlinarith [key]

/-- Acceptance is downward closed in the call volume: with the other
inputs fixed (positive handle time and patience, nonnegative threshold),
a candidate accepted at volume `c2` is also accepted at any volume
`c1 ≤ c2` with `0 ≤ c1`. -/
lemma accepted_anti (p : Params) (c1 c2 : ℝ) (h0 : 0 ≤ c1) (h12 : c1 ≤ c2)
    (haht : 0 < p.aht_sec) (hpat : 0 < p.avg_patience_sec)
    (hthr : 0 ≤ p.sla_threshold_sec) (n : ℕ) (hn : 1 ≤ n)
    (hacc : accepted { p with calls_per_hour := c2 } n) :
    accepted { p with calls_per_hour := c1 } n := by
  have hmu : 0 < mu p := by rw [mu]; positivity
  have hth : 0 < theta p := by rw [theta]; positivity
  have hn0 : (0 : ℝ) < n := by exact_mod_cast Nat.pos_of_ne_zero (by omega)
  have hl1 : lambda_per_sec { p with calls_per_hour := c1 } = c1 / 3600 := rfl
  have hl2 : lambda_per_sec { p with calls_per_hour := c2 } = c2 / 3600 := rfl
  have hmu1 : mu { p with calls_per_hour := c1 } = mu p := rfl
  have hmu2 : mu { p with calls_per_hour := c2 } = mu p := rfl
  have hth2 : theta { p with calls_per_hour := c2 } = theta p := rfl
  have hthr2 : ({ p with calls_per_hour := c2 } : Params).sla_threshold_sec =
      p.sla_threshold_sec := rfl
  have htsl2 : ({ p with calls_per_hour := c2 } : Params).target_sla =
      p.target_sla := rfl
  have htar2 : ({ p with calls_per_hour := c2 } : Params).target_answer_rate =
      p.target_answer_rate := rfl
  have ha1 : 0 ≤ c1 / 3600 / mu p :=
    div_nonneg (div_nonneg h0 (by norm_num)) hmu.le
  have ha12 : c1 / 3600 / mu p ≤ c2 / 3600 / mu p := by gcongr
  have ha2 : 0 ≤ c2 / 3600 / mu p := ha1.trans ha12
  obtain ⟨hr2, hsl2, har2⟩ := hacc
  rw [rho_div, hl2, hmu2] at hr2
  have hr1 : c1 / 3600 / mu p / n < 1 := lt_of_le_of_lt (by gcongr) hr2
  have hmono : pwA (c1 / 3600 / mu p) n ≤ pwA (c2 / 3600 / mu p) n :=
    pwA_mono _ _ n hn ha1 ha12 hr2
  have hnn2 : 0 ≤ pwA (c2 / 3600 / mu p) n := pwA_nonneg _ n hn ha2 hr2
  refine ⟨?_, ?_, ?_⟩
  · rw [rho_div, hl1, hmu1]
    exact hr1
  · have htsl1 : ({ p with calls_per_hour := c1 } : Params).target_sla =
        p.target_sla := rfl
    have hthr1 : ({ p with calls_per_hour := c1 } : Params).sla_threshold_sec =
        p.sla_threshold_sec := rfl
    rw [service_level, pw_eq_pwA, hl1, hmu1, htsl1, hthr1]
    rw [service_level, pw_eq_pwA, hl2, hmu2, htsl2, hthr2] at hsl2
    have hE : -((n * mu p : ℝ) - c1 / 3600) * p.sla_threshold_sec ≤
        -((n * mu p : ℝ) - c2 / 3600) * p.sla_threshold_sec := by
      have h6 : c1 / 3600 ≤ c2 / 3600 := by gcongr
      nlinarith
    have hprod := mul_le_mul hmono (Real.exp_le_exp.mpr hE)
      (Real.exp_pos _).le hnn2
    linarith
  · have htar1 : ({ p with calls_per_hour := c1 } : Params).target_answer_rate =
        p.target_answer_rate := rfl
    have hth1 : theta { p with calls_per_hour := c1 } = theta p := rfl
    rw [answer_rate, pw_eq_pwA, hl1, hmu1, htar1, hth1]
    rw [answer_rate, pw_eq_pwA, hl2, hmu2, htar2, hth2] at har2
    have hc : 0 ≤ theta p / ((n : ℝ) * mu p + theta p) :=
      div_nonneg hth.le (add_pos (mul_pos hn0 hmu) hth).le
    have hprod := mul_le_mul_of_nonneg_right hmono hc
    linarith

/-- C6: with the targets, handle time, patience, threshold and ceiling
fixed and shrinkage below one, raising the call volume never lowers the
solver's result: if the higher volume `c2` is feasible with result `r2`,
every volume `0 ≤ c1 ≤ c2` is feasible with a result `r1 ≤ r2` (so
feasibility is downward closed in the volume and the returned staffing
level is weakly increasing). -/
theorem C6_volume_monotone (p : Params) (c1 c2 : ℝ) (h0 : 0 ≤ c1)
    (h12 : c1 ≤ c2) (haht : 0 < p.aht_sec) (hpat : 0 < p.avg_patience_sec)
    (hthr : 0 ≤ p.sla_threshold_sec) (hs : p.shrinkage < 1) (r2 : ℤ)
    (h2 : erlang_a_fte { p with calls_per_hour := c2 } = some r2) :
    ∃ r1, erlang_a_fte { p with calls_per_hour := c1 } = some r1 ∧ r1 ≤ r2 := by
  classical
  obtain ⟨m2, hm21, hm22, hacc2, _, hr2⟩ :=
    search_eq_some { p with calls_per_hour := c2 } _ _ _ h2
  have hacc1 : accepted { p with calls_per_hour := c1 } m2 :=
    accepted_anti p c1 c2 h0 h12 haht hpat hthr m2 hm21 hacc2
  have hex : ∃ m, 1 ≤ m ∧ accepted { p with calls_per_hour := c1 } m :=
    ⟨m2, hm21, hacc1⟩
  obtain ⟨hm1a, hm1acc⟩ := Nat.find_spec hex
  have hm1le : Nat.find hex ≤ m2 := Nat.find_min' hex ⟨hm21, hacc1⟩
  have hmin1 : ∀ j, 1 ≤ j → j < Nat.find hex →
      ¬ accepted { p with calls_per_hour := c1 } j := fun j hj1 hj2 hacc =>
    Nat.find_min hex hj2 ⟨hj1, hacc⟩
  have hm22' : m2 < 1 + (p.max_agents - 1) := hm22
  have hm1lt : Nat.find hex < 1 + (p.max_agents - 1) := by omega
  have hsearch := search_eq_some_of { p with calls_per_hour := c1 }
    (p.max_agents - 1) 1 (Nat.find hex) hm1a hm1lt hm1acc hmin1
  refine ⟨returned { p with calls_per_hour := c1 } (Nat.find hex), ?_, ?_⟩
  · rw [erlang_a_fte]
    exact hsearch
  · rw [hr2, returned, returned]
    have hsh1 : ({ p with calls_per_hour := c1 } : Params).shrinkage =
        p.shrinkage := rfl
    have hsh2 : ({ p with calls_per_hour := c2 } : Params).shrinkage =
        p.shrinkage := rfl
    rw [hsh1, hsh2]
    apply Int.ceil_le_ceil
    have hm : ((Nat.find hex : ℕ) : ℝ) ≤ (m2 : ℝ) := by exact_mod_cast hm1le
    have hpos : (0 : ℝ) < 1 - p.shrinkage := by linarith
    gcongr

/-- C6 witness: the monotonicity statement applied at the zero-volume
input against itself. -/
theorem C6_volume_monotone_witness :
    ∃ r1, erlang_a_fte { pZero with calls_per_hour := 0 } = some r1 ∧
      r1 ≤ 1 :=
  C6_volume_monotone pZero 0 0 (by norm_num) (by norm_num)
    (by norm_num [pZero]) (by norm_num [pZero]) (by norm_num [pZero])
    (by norm_num [pZero]) 1 pZero_fte

end ECCStaffing
